import Mathlib

/-!
Shallow embedding of the `rate-limit` pallet (`src/rate-limit/src/lib.rs`).

Modelling conventions:
* `u64` / `u128` machine integers become `Nat`; the saturating operations of the
  source are made explicit (`Nat` subtraction already saturates at zero;
  saturating multiplication/addition at the `u128` width clamp at `U128MAX`).
* The storage maps (`RateLimitRules`, `RateLimitQuota`, `BypassLimitWhitelist`)
  become total functions in a `PalletState` record.  `ValueQuery` storage reads
  of an absent entry yield the type's default, so an absent `RateLimitQuota`
  entry is the pair `(0, 0)` and an absent whitelist is `[]`; removing an entry
  is modelled by writing that default back.
* Dispatchable calls are `#[transactional]`: an error leaves the state
  untouched, so each extrinsic returns `PalletState × Option <error>` where the
  error case carries the unchanged input state.
* `RateLimiterId` is opaque and totally ordered; it is modelled by `Nat`.
  Encoded keys and the byte payloads of key filters are `List Nat`.
* The block number (`frame_system::block_number()`) and the unix time
  (`T::UnixTime::now().as_secs()`) are external inputs, passed as the explicit
  arguments `nowBlocks` and `nowSecs`.
-/

abbrev LimiterId := Nat

abbrev EncodedKey := List Nat

/-- Key filters of the bypass whitelist (`enum KeyFilter`, lib.rs:63-70). -/
inductive KeyFilter where
  | Match (v : List Nat)
  | StartsWith (v : List Nat)
  | EndsWith (v : List Nat)
deriving DecidableEq

/-- Lexicographic strict order on byte vectors: the derived `Ord` of
`Vec<u8>` in Rust (shorter prefix sorts first). -/
def bytesLt : List Nat → List Nat → Bool
  | [], [] => false
  | [], _ :: _ => true
  | _ :: _, [] => false
  | a :: as, b :: bs => decide (a < b) || (a == b && bytesLt as bs)

/-- Discriminant of a `KeyFilter` variant, in declaration order, as used by the
derived `Ord` on `KeyFilter`. -/
def kfTag : KeyFilter → Nat
  | KeyFilter.Match _ => 0
  | KeyFilter.StartsWith _ => 1
  | KeyFilter.EndsWith _ => 2

/-- Byte payload of a `KeyFilter`. -/
def kfBytes : KeyFilter → List Nat
  | KeyFilter.Match v => v
  | KeyFilter.StartsWith v => v
  | KeyFilter.EndsWith v => v

/-- Strict order on `KeyFilter` given by the derived `Ord`: variant
discriminant first, then the lexicographic order of the payload. -/
def kfLt (a b : KeyFilter) : Bool :=
  decide (kfTag a < kfTag b) || (kfTag a == kfTag b && bytesLt (kfBytes a) (kfBytes b))

theorem bytesLt_irrefl : ∀ l : List Nat, bytesLt l l = false
  | [] => rfl
  | a :: as => by simp [bytesLt, bytesLt_irrefl as]

theorem bytesLt_trans :
    ∀ {a b c : List Nat}, bytesLt a b = true → bytesLt b c = true → bytesLt a c = true := by
  intro a
  induction a with
  | nil =>
    intro b c hab hbc
    cases b with
    | nil => simp [bytesLt] at hab
    | cons y ys =>
      cases c with
      | nil => simp [bytesLt] at hbc
      | cons z zs => simp [bytesLt]
  | cons x xs ih =>
    intro b c hab hbc
    cases b with
    | nil => simp [bytesLt] at hab
    | cons y ys =>
      cases c with
      | nil => simp [bytesLt] at hbc
      | cons z zs =>
        simp only [bytesLt, Bool.or_eq_true, Bool.and_eq_true, decide_eq_true_eq,
          beq_iff_eq] at hab hbc ⊢
        rcases hab with h1 | ⟨h1, h1'⟩ <;> rcases hbc with h2 | ⟨h2, h2'⟩
        · exact Or.inl (Nat.lt_trans h1 h2)
        · exact Or.inl (h2 ▸ h1)
        · exact Or.inl (h1 ▸ h2)
        · exact Or.inr ⟨h1.trans h2, ih h1' h2'⟩

theorem bytesLt_connex :
    ∀ {a b : List Nat}, bytesLt a b = false → bytesLt b a = false → a = b := by
  intro a
  induction a with
  | nil =>
    intro b hab _
    cases b with
    | nil => rfl
    | cons y ys => simp [bytesLt] at hab
  | cons x xs ih =>
    intro b hab hba
    cases b with
    | nil => simp [bytesLt] at hba
    | cons y ys =>
      simp only [bytesLt, Bool.or_eq_false_iff, Bool.and_eq_false_iff,
        decide_eq_false_iff_not, beq_eq_false_iff_ne, ne_eq] at hab hba
      obtain ⟨hxy, hab'⟩ := hab
      obtain ⟨hyx, hba'⟩ := hba
      have hx : x = y := Nat.le_antisymm (Nat.not_lt.mp hyx) (Nat.not_lt.mp hxy)
      subst hx
      rcases hab' with h | h
      · exact absurd rfl h
      rcases hba' with h' | h'
      · exact absurd rfl h'
      exact congrArg (x :: ·) (ih h h')

theorem kfLt_irrefl (a : KeyFilter) : kfLt a a = false := by
  simp [kfLt, bytesLt_irrefl]

theorem kfLt_trans {a b c : KeyFilter} (hab : kfLt a b = true) (hbc : kfLt b c = true) :
    kfLt a c = true := by
  simp only [kfLt, Bool.or_eq_true, Bool.and_eq_true, decide_eq_true_eq, beq_iff_eq] at hab hbc ⊢
  rcases hab with h1 | ⟨h1, h1'⟩ <;> rcases hbc with h2 | ⟨h2, h2'⟩
  · exact Or.inl (Nat.lt_trans h1 h2)
  · exact Or.inl (h2 ▸ h1)
  · exact Or.inl (h1 ▸ h2)
  · exact Or.inr ⟨h1.trans h2, bytesLt_trans h1' h2'⟩

theorem kfEq_of_parts {a b : KeyFilter} (ht : kfTag a = kfTag b) (hv : kfBytes a = kfBytes b) :
    a = b := by
  cases a <;> cases b <;> simp_all [kfTag, kfBytes]

theorem kfLt_connex {a b : KeyFilter} (hab : kfLt a b = false) (hba : kfLt b a = false) :
    a = b := by
  simp only [kfLt, Bool.or_eq_false_iff, Bool.and_eq_false_iff, decide_eq_false_iff_not,
    beq_eq_false_iff_ne, ne_eq] at hab hba
  obtain ⟨htab, hab'⟩ := hab
  obtain ⟨htba, hba'⟩ := hba
  have ht : kfTag a = kfTag b := Nat.le_antisymm (Nat.not_lt.mp htba) (Nat.not_lt.mp htab)
  rcases hab' with h | h
  · exact absurd ht h
  rcases hba' with h' | h'
  · exact absurd ht.symm h'
  exact kfEq_of_parts ht (bytesLt_connex h h')

theorem kfLt_asymm {a b : KeyFilter} (hab : kfLt a b = true) : kfLt b a = false := by
  cases h : kfLt b a
  · rfl
  · exact absurd (kfLt_irrefl a) (by simp [kfLt_trans hab h])

/-- Non-strict companion of `kfLt`, used as the sorting relation. -/
def KfLe (a b : KeyFilter) : Prop := kfLt b a = false

instance : DecidableRel KfLe := fun a b => inferInstanceAs (Decidable (kfLt b a = false))

instance : IsTotal KeyFilter KfLe :=
  ⟨fun a b => by
    by_cases h : kfLt b a = false
    · exact Or.inl h
    · exact Or.inr (kfLt_asymm (Bool.of_not_eq_false h))⟩

instance : IsTrans KeyFilter KfLe :=
  ⟨fun a b c hab hbc => by
    have hab' : kfLt b a = false := hab
    have hbc' : kfLt c b = false := hbc
    show kfLt c a = false
    cases h : kfLt c a
    · rfl
    · exfalso
      cases h2 : kfLt a b
      · have he : a = b := kfLt_connex h2 hab'
        subst he
        rw [h] at hbc'
        exact Bool.noConfusion hbc'
      · have ht : kfLt c b = true := kfLt_trans h h2
        rw [hbc'] at ht
        exact Bool.noConfusion ht⟩

/-- Position at which `x` would be inserted into `l` to keep it sorted: the
number of leading elements strictly below `x`. -/
def searchIdx (x : KeyFilter) : List KeyFilter → Nat
  | [] => 0
  | y :: ys => if kfLt y x then searchIdx x ys + 1 else 0

/-- Model of `slice::binary_search` (lib.rs:241, 271) by its documented
contract on a sorted slice: `ok i` when the element is at index `i`,
`error i` with the sorted insertion index when it is absent. -/
def binarySearch (x : KeyFilter) (wl : List KeyFilter) : Except Nat Nat :=
  match wl.get? (searchIdx x wl) with
  | some y => if y = x then Except.ok (searchIdx x wl) else Except.error (searchIdx x wl)
  | none => Except.error (searchIdx x wl)

/-- Model of `Vec::insert` / `BoundedVec::try_insert`'s placement at `i`. -/
def insertAt (i : Nat) (x : KeyFilter) (l : List KeyFilter) : List KeyFilter :=
  l.take i ++ x :: l.drop i

/-- The whitelist-mutation errors of `enum Error` (lib.rs:93-103). -/
inductive WhitelistError where
  | FilterExisted
  | FilterNotExisted
  | MaxFilterExceeded
deriving DecidableEq

/-- Whitelist update of `add_whitelist` (lib.rs:232-251): binary-search for the
filter, fail with `FilterExisted` when present, otherwise `try_insert` at the
returned location, failing with `MaxFilterExceeded` when the bounded vector is
full. -/
def addWhitelist (maxCount : Nat) (wl : List KeyFilter) (kf : KeyFilter) :
    Except WhitelistError (List KeyFilter) :=
  match binarySearch kf wl with
  | Except.ok _ => Except.error WhitelistError.FilterExisted
  | Except.error loc =>
      if wl.length < maxCount then Except.ok (insertAt loc kf wl)
      else Except.error WhitelistError.MaxFilterExceeded

/-- Whitelist update of `remove_whitelist` (lib.rs:262-279): binary-search for
the filter and remove it.  Note the SOURCE maps the not-found case to
`Error::FilterExisted` (lib.rs:273), not `FilterNotExisted`. -/
def removeWhitelist (wl : List KeyFilter) (kf : KeyFilter) :
    Except WhitelistError (List KeyFilter) :=
  match binarySearch kf wl with
  | Except.ok loc => Except.ok (wl.eraseIdx loc)
  | Except.error _ => Except.error WhitelistError.FilterExisted

/-- Model of `Vec::sort` (lib.rs:299): a stable sort by the derived order.
Stable sorts agree on their output, so insertion sort is used. -/
def sortKF (l : List KeyFilter) : List KeyFilter := List.insertionSort KfLe l

/-- Whitelist replacement of `reset_whitelist` (lib.rs:290-304): fail with
`MaxFilterExceeded` when `new_list` exceeds the bound, otherwise store the
sorted list (no deduplication is performed). -/
def resetWhitelist (maxCount : Nat) (newList : List KeyFilter) :
    Except WhitelistError (List KeyFilter) :=
  if newList.length ≤ maxCount then Except.ok (sortKF newList)
  else Except.error WhitelistError.MaxFilterExceeded

/-- Limit rules (`enum RateLimitRule`, lib.rs:38-59).  `u64` and `u128` fields
are modelled by `Nat`. -/
inductive RateLimitRule where
  | PerBlocks (blocks_count : Nat) (quota : Nat)
  | PerSeconds (secs_count : Nat) (quota : Nat)
  | TokenBucket (blocks_count : Nat) (quota_increment : Nat) (max_quota : Nat)
  | Unlimited
  | NotAllowed
deriving DecidableEq

/-- The `RateLimitQuota` storage value `(LastUpdatedBlockOrTime, RemainerQuota)`
(lib.rs:137).  The `ValueQuery` default of an absent entry is `(0, 0)`. -/
structure QuotaState where
  last_updated : Nat
  remainer_quota : Nat
deriving DecidableEq

/-- Largest `u128` value, the clamp of the saturating `u128` operations. -/
def U128MAX : Nat := 2 ^ 128 - 1

/-- Model of `u64::saturating_sub`: `Nat` subtraction already truncates at 0. -/
def satSub (a b : Nat) : Nat := a - b

/-- Model of `u128::saturating_mul`. -/
def satMul128 (a b : Nat) : Nat := min (a * b) U128MAX

/-- Model of `u128::saturating_add`. -/
def satAdd128 (a b : Nat) : Nat := min (a + b) U128MAX

/-- The quota engine `access_remainer_quota_after_update` (lib.rs:310-361) as a
pure state transformer: it receives the current quota state read from storage
(the `(0, 0)` default when absent) and returns the written-back state together
with the returned `remainer_quota`.  `nowBlocks` is the block number used by
`PerBlocks` / `TokenBucket`; `nowSecs` the unix seconds used by `PerSeconds`. -/
def access_remainer_quota_after_update (rate_limit_rule : RateLimitRule)
    (nowBlocks nowSecs : Nat) (s : QuotaState) : QuotaState × Nat :=
  match rate_limit_rule with
  | RateLimitRule.PerBlocks blocks_count quota =>
      let interval : Nat := satSub nowBlocks s.last_updated
      if interval ≥ blocks_count then (⟨nowBlocks, quota⟩, quota)
      else (s, s.remainer_quota)
  | RateLimitRule.PerSeconds secs_count quota =>
      let interval : Nat := satSub nowSecs s.last_updated
      if interval ≥ secs_count then (⟨nowSecs, quota⟩, quota)
      else (s, s.remainer_quota)
  | RateLimitRule.TokenBucket blocks_count quota_increment max_quota =>
      let interval : Nat := satSub nowBlocks s.last_updated
      if blocks_count ≠ 0 ∧ interval ≥ blocks_count then
        let inc_times : Nat := interval / blocks_count
        let newQuota : Nat :=
          min (satAdd128 (satMul128 quota_increment inc_times) s.remainer_quota) max_quota
        (⟨nowBlocks, newQuota⟩, newQuota)
      else (s, s.remainer_quota)
  | _ => (s, s.remainer_quota)

/-- The three storage maps of the pallet (lib.rs:125-145), as total functions.
Absent entries of the two `RateLimitQuota` / `BypassLimitWhitelist`
`ValueQuery` maps are their defaults. -/
structure PalletState where
  rateLimitRules : LimiterId → EncodedKey → Option RateLimitRule
  rateLimitQuota : LimiterId → EncodedKey → QuotaState
  bypassLimitWhitelist : LimiterId → List KeyFilter

/-- Pointwise update of the `RateLimitQuota` map at one `(limiter, key)`. -/
def setQuota (st : PalletState) (id : LimiterId) (key : EncodedKey) (q : QuotaState) :
    PalletState :=
  { st with rateLimitQuota := fun i k => if i = id ∧ k = key then q else st.rateLimitQuota i k }

/-- Pointwise update of the `RateLimitRules` map at one `(limiter, key)`. -/
def setRule (st : PalletState) (id : LimiterId) (key : EncodedKey)
    (r : Option RateLimitRule) : PalletState :=
  { st with rateLimitRules := fun i k => if i = id ∧ k = key then r else st.rateLimitRules i k }

/-- Replacement of the whitelist of one limiter. -/
def setWhitelist (st : PalletState) (id : LimiterId) (wl : List KeyFilter) : PalletState :=
  { st with bypassLimitWhitelist := fun i => if i = id then wl else st.bypassLimitWhitelist i }

/-- The runtime error of the `RateLimiter` trait (`RateLimiterError`). -/
inductive RateLimiterError where
  | ExceedLimit
deriving DecidableEq

/-- Whether an optional rule is one of the three replenishing kinds. -/
def isReplenishing : Option RateLimitRule → Bool
  | some (RateLimitRule.PerBlocks _ _) => true
  | some (RateLimitRule.PerSeconds _ _) => true
  | some (RateLimitRule.TokenBucket _ _ _) => true
  | _ => false

/-- The `is_allowed` check (lib.rs:393-419).  For a replenishing rule it runs
the quota engine through `RateLimitQuota::mutate` (writing back the updated
state) and allows iff `value <= remainer_quota`; `Unlimited` and an absent rule
always allow, `NotAllowed` always denies; no other storage is touched. -/
def is_allowed (st : PalletState) (nowBlocks nowSecs : Nat) (limiter_id : LimiterId)
    (encoded_key : EncodedKey) (value : Nat) : PalletState × Except RateLimiterError Unit :=
  match st.rateLimitRules limiter_id encoded_key with
  | some (rate_limit_rule@(RateLimitRule.PerBlocks _ _))
  | some (rate_limit_rule@(RateLimitRule.PerSeconds _ _))
  | some (rate_limit_rule@(RateLimitRule.TokenBucket _ _ _)) =>
      let r := access_remainer_quota_after_update rate_limit_rule nowBlocks nowSecs
        (st.rateLimitQuota limiter_id encoded_key)
      (setQuota st limiter_id encoded_key r.1,
        if value ≤ r.2 then Except.ok () else Except.error RateLimiterError.ExceedLimit)
  | some RateLimitRule.Unlimited => (st, Except.ok ())
  | some RateLimitRule.NotAllowed => (st, Except.error RateLimiterError.ExceedLimit)
  | none => (st, Except.ok ())

/-- The `record` consumption (lib.rs:421-435): for a replenishing rule the
stored `remainer_quota` is decreased by `value` with `saturating_sub`, the
`last_updated` component untouched; otherwise nothing happens. -/
def record (st : PalletState) (limiter_id : LimiterId) (encoded_key : EncodedKey)
    (value : Nat) : PalletState :=
  match st.rateLimitRules limiter_id encoded_key with
  | some (RateLimitRule.PerBlocks _ _)
  | some (RateLimitRule.PerSeconds _ _)
  | some (RateLimitRule.TokenBucket _ _ _) =>
      setQuota st limiter_id encoded_key
        ⟨(st.rateLimitQuota limiter_id encoded_key).last_updated,
          satSub (st.rateLimitQuota limiter_id encoded_key).remainer_quota value⟩
  | _ => st

/-- The `bypass_limit` loop body (lib.rs:371-387) for one filter:
byte-equality for `Match`, `starts_with` for `StartsWith`, `ends_with` for
`EndsWith`. -/
def listStartsWith : List Nat → List Nat → Bool
  | _, [] => true
  | [], _ :: _ => false
  | a :: as, b :: bs => a == b && listStartsWith as bs

/-- Model of `slice::ends_with`: the reversed key starts with the reversed
pattern. -/
def listEndsWith (key pat : List Nat) : Bool := listStartsWith key.reverse pat.reverse

/-- Whether one `KeyFilter` accepts the encoded key (lib.rs:371-387). -/
def matchesFilter (encoded_key : EncodedKey) : KeyFilter → Bool
  | KeyFilter.Match v => encoded_key == v
  | KeyFilter.StartsWith v => listStartsWith encoded_key v
  | KeyFilter.EndsWith v => listEndsWith encoded_key v

/-- The whitelist scan of `bypass_limit`: true as soon as some filter in the
list matches (the early-`return true` loop). -/
def bypassList (wl : List KeyFilter) (encoded_key : EncodedKey) : Bool :=
  wl.any (matchesFilter encoded_key)

/-- The `bypass_limit` check (lib.rs:367-391): scan the whitelist stored for
`limiter_id` (empty when none is configured). -/
def bypass_limit (st : PalletState) (limiter_id : LimiterId) (encoded_key : EncodedKey) : Bool :=
  bypassList (st.bypassLimitWhitelist limiter_id) encoded_key

/-- The rule-validation error of `enum Error` (lib.rs:95). -/
inductive RuleError where
  | InvalidRateLimitRule
deriving DecidableEq

/-- The non-zero validation of `update_rate_limit_rule` (lib.rs:181-207). -/
def validRule : RateLimitRule → Bool
  | RateLimitRule.PerBlocks blocks_count quota =>
      decide (blocks_count ≠ 0) && decide (quota ≠ 0)
  | RateLimitRule.PerSeconds secs_count quota =>
      decide (secs_count ≠ 0) && decide (quota ≠ 0)
  | RateLimitRule.TokenBucket blocks_count quota_increment max_quota =>
      decide (blocks_count ≠ 0) && decide (quota_increment ≠ 0) && decide (max_quota ≠ 0)
  | _ => true

/-- The `update_rate_limit_rule` extrinsic (lib.rs:167-221): write `update`
into `RateLimitRules`, validate the written rule (non-zero fields for the
replenishing kinds), and remove the `RateLimitQuota` entry (write its `(0, 0)`
default).  The `#[transactional]` rollback on a validation error is modelled by
returning the untouched input state with the error. -/
def update_rate_limit_rule (st : PalletState) (rate_limiter_id : LimiterId)
    (encoded_key : EncodedKey) (update : Option RateLimitRule) :
    PalletState × Option RuleError :=
  match update with
  | some rule =>
      if validRule rule then
        (setQuota (setRule st rate_limiter_id encoded_key (some rule))
          rate_limiter_id encoded_key ⟨0, 0⟩, none)
      else (st, some RuleError.InvalidRateLimitRule)
  | none =>
      (setQuota (setRule st rate_limiter_id encoded_key none)
        rate_limiter_id encoded_key ⟨0, 0⟩, none)

/-- The `add_whitelist` extrinsic (lib.rs:232-251) acting on the pallet state;
`try_mutate` plus `#[transactional]` keep the state untouched on error. -/
def add_whitelist (maxCount : Nat) (st : PalletState) (rate_limiter_id : LimiterId)
    (key_filter : KeyFilter) : PalletState × Option WhitelistError :=
  match addWhitelist maxCount (st.bypassLimitWhitelist rate_limiter_id) key_filter with
  | Except.ok wl => (setWhitelist st rate_limiter_id wl, none)
  | Except.error e => (st, some e)

/-- The `remove_whitelist` extrinsic (lib.rs:262-279) acting on the pallet
state. -/
def remove_whitelist (st : PalletState) (rate_limiter_id : LimiterId)
    (key_filter : KeyFilter) : PalletState × Option WhitelistError :=
  match removeWhitelist (st.bypassLimitWhitelist rate_limiter_id) key_filter with
  | Except.ok wl => (setWhitelist st rate_limiter_id wl, none)
  | Except.error e => (st, some e)

/-- The `reset_whitelist` extrinsic (lib.rs:290-304) acting on the pallet
state. -/
def reset_whitelist (maxCount : Nat) (st : PalletState) (rate_limiter_id : LimiterId)
    (new_list : List KeyFilter) : PalletState × Option WhitelistError :=
  match resetWhitelist maxCount new_list with
  | Except.ok wl => (setWhitelist st rate_limiter_id wl, none)
  | Except.error e => (st, some e)

/-- Genesis state: all three maps empty (every entry at its default). -/
def initState : PalletState :=
  ⟨fun _ _ => none, fun _ _ => ⟨0, 0⟩, fun _ => []⟩

/-- Sorted-without-duplicates invariant of a stored whitelist: the strict
derived order holds between every earlier and every later element.  For the
strict total order `kfLt` this is exactly sortedness plus freedom from
duplicates. -/
def StrictSorted (l : List KeyFilter) : Prop :=
  l.Pairwise (fun a b => kfLt a b = true)

instance (l : List KeyFilter) : Decidable (StrictSorted l) :=
  inferInstanceAs (Decidable (l.Pairwise _))

theorem binarySearch_err_idx {x : KeyFilter} {wl : List KeyFilter} {i : Nat}
    (h : binarySearch x wl = Except.error i) : i = searchIdx x wl := by
  unfold binarySearch at h
  split at h
  · split at h
    · exact absurd h (by simp)
    · exact (Except.error.inj h).symm
  · exact (Except.error.inj h).symm

theorem binarySearch_ok_mem {x : KeyFilter} {wl : List KeyFilter} {i : Nat}
    (h : binarySearch x wl = Except.ok i) : x ∈ wl := by
  unfold binarySearch at h
  split at h
  · next y hg =>
    split at h
    · next he => subst he; exact List.get?_mem hg
    · exact absurd h (by simp)
  · exact absurd h (by simp)

theorem mem_get_searchIdx {x : KeyFilter} :
    ∀ {wl : List KeyFilter}, StrictSorted wl → x ∈ wl →
      wl.get? (searchIdx x wl) = some x := by
  intro wl
  induction wl with
  | nil => intro _ hm; cases hm
  | cons y ys ih =>
    intro hs hm
    rcases List.mem_cons.mp hm with he | hm'
    · subst he
      rw [searchIdx, kfLt_irrefl]
      simp
    · have hlt : kfLt y x = true := (List.pairwise_cons.mp hs).1 x hm'
      rw [searchIdx, if_pos hlt]
      simpa using ih (List.pairwise_cons.mp hs).2 hm'

theorem binarySearch_err_not_mem {x : KeyFilter} {wl : List KeyFilter} {i : Nat}
    (hs : StrictSorted wl) (h : binarySearch x wl = Except.error i) : ¬ x ∈ wl := by
  intro hm
  have hg := mem_get_searchIdx hs hm
  unfold binarySearch at h
  rw [hg] at h
  simp at h

theorem mem_insertAt {z x : KeyFilter} {i : Nat} {l : List KeyFilter} :
    z ∈ insertAt i x l ↔ z = x ∨ z ∈ l := by
  unfold insertAt
  constructor
  · intro h
    rcases List.mem_append.mp h with h1 | h2
    · exact Or.inr ((List.take_sublist i l).subset h1)
    · rcases List.mem_cons.mp h2 with h3 | h4
      · exact Or.inl h3
      · exact Or.inr ((List.drop_sublist i l).subset h4)
  · intro h
    rcases h with h | h
    · exact List.mem_append.mpr (Or.inr (List.mem_cons.mpr (Or.inl h)))
    · have hz : z ∈ l.take i ++ l.drop i := by rw [List.take_append_drop]; exact h
      rcases List.mem_append.mp hz with h1 | h2
      · exact List.mem_append.mpr (Or.inl h1)
      · exact List.mem_append.mpr (Or.inr (List.mem_cons.mpr (Or.inr h2)))

theorem insertAt_searchIdx_sorted {x : KeyFilter} :
    ∀ {wl : List KeyFilter}, StrictSorted wl → ¬ x ∈ wl →
      StrictSorted (insertAt (searchIdx x wl) x wl) := by
  intro wl
  induction wl with
  | nil => intro _ _; simp [insertAt, searchIdx, StrictSorted]
  | cons y ys ih =>
    intro hs hnm
    have hyall := (List.pairwise_cons.mp hs).1
    have hys := (List.pairwise_cons.mp hs).2
    by_cases hlt : kfLt y x = true
    · rw [searchIdx, if_pos hlt]
      have hstep : insertAt (searchIdx x ys + 1) x (y :: ys)
          = y :: insertAt (searchIdx x ys) x ys := rfl
      rw [hstep]
      refine List.pairwise_cons.mpr
        ⟨?_, ih hys (fun hm => hnm (List.mem_cons.mpr (Or.inr hm)))⟩
      intro z hz
      rcases mem_insertAt.mp hz with he | hm
      · subst he; exact hlt
      · exact hyall z hm
    · rw [searchIdx, if_neg hlt]
      have hlt' : kfLt y x = false := by
        cases h : kfLt y x
        · rfl
        · exact absurd h hlt
      have hstep : insertAt 0 x (y :: ys) = x :: y :: ys := rfl
      rw [hstep]
      have hxy : kfLt x y = true := by
        cases hxyc : kfLt x y
        · exact absurd (List.mem_cons.mpr (Or.inl (kfLt_connex hxyc hlt'))) hnm
        · rfl
      refine List.pairwise_cons.mpr ⟨?_, hs⟩
      intro z hz
      rcases List.mem_cons.mp hz with he | hm
      · subst he; exact hxy
      · exact kfLt_trans hxy (hyall z hm)

theorem addWhitelist_ok_sorted {maxCount : Nat} {wl wl' : List KeyFilter} {kf : KeyFilter}
    (hs : StrictSorted wl) (h : addWhitelist maxCount wl kf = Except.ok wl') :
    StrictSorted wl' := by
  unfold addWhitelist at h
  split at h
  · exact absurd h (by simp)
  · next loc hbs =>
    split at h
    · have hloc : loc = searchIdx kf wl := binarySearch_err_idx hbs
      have hnm := binarySearch_err_not_mem hs hbs
      rw [hloc] at h
      injection h with h'
      rw [← h']
      exact insertAt_searchIdx_sorted hs hnm
    · exact absurd h (by simp)

theorem removeWhitelist_ok_sorted {wl wl' : List KeyFilter} {kf : KeyFilter}
    (hs : StrictSorted wl) (h : removeWhitelist wl kf = Except.ok wl') : StrictSorted wl' := by
  unfold removeWhitelist at h
  split at h
  · next loc hbs =>
    injection h with h'
    rw [← h']
    exact hs.sublist (List.eraseIdx_sublist wl loc)
  · exact absurd h (by simp)

theorem sortKF_sorted (l : List KeyFilter) : List.Sorted KfLe (sortKF l) :=
  List.sorted_insertionSort KfLe l

theorem sortKF_perm (l : List KeyFilter) : List.Perm (sortKF l) l :=
  List.perm_insertionSort KfLe l

theorem strictSorted_of_sorted_nodup {l : List KeyFilter}
    (hs : List.Sorted KfLe l) (hn : l.Nodup) : StrictSorted l := by
  refine List.Pairwise.imp ?_ (hs.and hn)
  intro a b hab
  obtain ⟨hle, hne⟩ := hab
  cases hc : kfLt a b
  · exact absurd (kfLt_connex hc hle) hne
  · rfl

theorem resetWhitelist_ok {maxCount : Nat} {nl wl' : List KeyFilter}
    (h : resetWhitelist maxCount nl = Except.ok wl') : wl' = sortKF nl := by
  unfold resetWhitelist at h
  split at h
  · exact (Except.ok.inj h).symm
  · exact absurd h (by simp)

/-- C1: removing a `KeyFilter` from a limiter whose whitelist does not contain
it fails and leaves the state unchanged, but the error the source returns is
`FilterExisted` (lib.rs:273), not the `FilterNotExisted` variant that the
error enum documents for a missing filter. -/
theorem remove_whitelist_absent_error :
    remove_whitelist initState 0 (KeyFilter.Match [])
        = (initState, some WhitelistError.FilterExisted)
      ∧ WhitelistError.FilterExisted ≠ WhitelistError.FilterNotExisted :=
  ⟨rfl, by decide⟩

/-- C2 counterexample: `reset_whitelist` with the duplicate-carrying list
`[Match [], Match []]` succeeds and stores that duplicate list verbatim
(sorting does not deduplicate), so the stored set is not duplicate-free. -/
theorem reset_whitelist_keeps_duplicates :
    (reset_whitelist 2 initState 0 [KeyFilter.Match [], KeyFilter.Match []]).2 = none
      ∧ (reset_whitelist 2 initState 0
            [KeyFilter.Match [], KeyFilter.Match []]).1.bypassLimitWhitelist 0
          = [KeyFilter.Match [], KeyFilter.Match []]
      ∧ ¬ ([KeyFilter.Match [], KeyFilter.Match []] : List KeyFilter).Nodup :=
  ⟨rfl, rfl, by decide⟩

/-- C2 (amended): after a successful `add_whitelist` or `remove_whitelist`
from a sorted duplicate-free set the stored set is again sorted and
duplicate-free, and after a successful `reset_whitelist` the stored set is
sorted, and duplicate-free provided the caller-supplied list had no
duplicates. -/
theorem whitelist_mutations_sorted (maxCount : Nat) (st : PalletState) (id : LimiterId) :
    (∀ kf, StrictSorted (st.bypassLimitWhitelist id) →
      (add_whitelist maxCount st id kf).2 = none →
      StrictSorted ((add_whitelist maxCount st id kf).1.bypassLimitWhitelist id))
    ∧ (∀ kf, StrictSorted (st.bypassLimitWhitelist id) →
      (remove_whitelist st id kf).2 = none →
      StrictSorted ((remove_whitelist st id kf).1.bypassLimitWhitelist id))
    ∧ (∀ nl, (reset_whitelist maxCount st id nl).2 = none →
      List.Sorted KfLe ((reset_whitelist maxCount st id nl).1.bypassLimitWhitelist id)
        ∧ (nl.Nodup →
            StrictSorted ((reset_whitelist maxCount st id nl).1.bypassLimitWhitelist id))) := by
  refine ⟨?_, ?_, ?_⟩
  · intro kf hs hnone
    cases haw : addWhitelist maxCount (st.bypassLimitWhitelist id) kf with
    | ok wl' =>
        have hres : (add_whitelist maxCount st id kf).1.bypassLimitWhitelist id = wl' := by
          simp [add_whitelist, haw, setWhitelist]
        rw [hres]
        exact addWhitelist_ok_sorted hs haw
    | error e =>
        have hsome : (add_whitelist maxCount st id kf).2 = some e := by
          simp [add_whitelist, haw]
        rw [hnone] at hsome
        exact Option.noConfusion hsome
  · intro kf hs hnone
    cases haw : removeWhitelist (st.bypassLimitWhitelist id) kf with
    | ok wl' =>
        have hres : (remove_whitelist st id kf).1.bypassLimitWhitelist id = wl' := by
          simp [remove_whitelist, haw, setWhitelist]
        rw [hres]
        exact removeWhitelist_ok_sorted hs haw
    | error e =>
        have hsome : (remove_whitelist st id kf).2 = some e := by
          simp [remove_whitelist, haw]
        rw [hnone] at hsome
        exact Option.noConfusion hsome
  · intro nl hnone
    cases hrw : resetWhitelist maxCount nl with
    | ok wl' =>
        have hres : (reset_whitelist maxCount st id nl).1.bypassLimitWhitelist id = wl' := by
          simp [reset_whitelist, hrw, setWhitelist]
        rw [hres, resetWhitelist_ok hrw]
        exact ⟨sortKF_sorted nl, fun hnd =>
          strictSorted_of_sorted_nodup (sortKF_sorted nl) ((sortKF_perm nl).nodup_iff.mpr hnd)⟩
    | error e =>
        have hsome : (reset_whitelist maxCount st id nl).2 = some e := by
          simp [reset_whitelist, hrw]
        rw [hnone] at hsome
        exact Option.noConfusion hsome

/-- Witness for the amended C2 theorem: a successful insertion into the empty
whitelist of the genesis state yields a sorted duplicate-free set. -/
theorem whitelist_mutations_sorted_witness :
    StrictSorted ((add_whitelist 3 initState 0 (KeyFilter.Match [])).1.bypassLimitWhitelist 0) :=
  (whitelist_mutations_sorted 3 initState 0).1 (KeyFilter.Match []) (by decide) (by decide)

/-- C3: for a validated `TokenBucket{b, inc, max}` rule (`max` a representable
`u128` value) starting from the `(0, 0)` default quota state, a replenishment
at block `now` with `n = now / b` full intervals elapsed yields remaining
quota `min max (inc * n)`; the returned remaining quota never exceeds `max`;
and whenever fewer than `b` ticks have elapsed since `last_updated`, the quota
state is unchanged. -/
theorem tokenBucket_quota (b inc maxq nowBlocks nowSecs : Nat)
    (hb : 0 < b) (hinc : 0 < inc) (hmax : 0 < maxq) (hrep : maxq ≤ U128MAX) :
    (b ≤ nowBlocks →
      access_remainer_quota_after_update (RateLimitRule.TokenBucket b inc maxq)
          nowBlocks nowSecs ⟨0, 0⟩
        = (⟨nowBlocks, min maxq (inc * (nowBlocks / b))⟩,
            min maxq (inc * (nowBlocks / b))))
    ∧ (access_remainer_quota_after_update (RateLimitRule.TokenBucket b inc maxq)
        nowBlocks nowSecs ⟨0, 0⟩).2 ≤ maxq
    ∧ (∀ s : QuotaState, satSub nowBlocks s.last_updated < b →
        access_remainer_quota_after_update (RateLimitRule.TokenBucket b inc maxq)
            nowBlocks nowSecs s
          = (s, s.remainer_quota)) := by
  have hkey : min (satAdd128 (satMul128 inc (nowBlocks / b)) 0) maxq
      = min maxq (inc * (nowBlocks / b)) := by
    simp only [satAdd128, satMul128]
    omega
  refine ⟨?_, ?_, ?_⟩
  · intro hnow
    simp only [access_remainer_quota_after_update, satSub, Nat.sub_zero]
    rw [if_pos ⟨Nat.pos_iff_ne_zero.mp hb, hnow⟩]
    rw [hkey]
  · simp only [access_remainer_quota_after_update, satSub, Nat.sub_zero]
    split
    · exact min_le_right _ maxq
    · exact Nat.zero_le maxq
  · intro s hlt
    simp only [access_remainer_quota_after_update]
    rw [if_neg]
    intro hc
    exact absurd hc.2 (Nat.not_le.mpr hlt)

/-- Witness for C3 at the worked example of the specification:
`TokenBucket{5, 10, 30}` from `(0, 0)` at block 12 yields
`min 30 (10 * 2) = 20`. -/
theorem tokenBucket_quota_witness :
    access_remainer_quota_after_update (RateLimitRule.TokenBucket 5 10 30) 12 0 ⟨0, 0⟩
      = (⟨12, min 30 (10 * (12 / 5))⟩, min 30 (10 * (12 / 5))) :=
  (tokenBucket_quota 5 10 30 12 0 (by decide) (by decide) (by decide) (by decide)).1
    (by decide)

/-- C4: for `PerBlocks` / `PerSeconds` the engine computes the elapsed time by
saturating subtraction from the respective clock, resets the state to
`(now, quota)` when at least the configured interval has elapsed, leaves it
unchanged otherwise, and the saturating subtraction yields 0 elapsed when the
clock is behind `last_updated`. -/
theorem fixedWindow_replenish (cnt q nowBlocks nowSecs : Nat) (s : QuotaState) :
    (access_remainer_quota_after_update (RateLimitRule.PerBlocks cnt q) nowBlocks nowSecs s
      = if cnt ≤ satSub nowBlocks s.last_updated then (⟨nowBlocks, q⟩, q)
        else (s, s.remainer_quota))
    ∧ (access_remainer_quota_after_update (RateLimitRule.PerSeconds cnt q) nowBlocks nowSecs s
      = if cnt ≤ satSub nowSecs s.last_updated then (⟨nowSecs, q⟩, q)
        else (s, s.remainer_quota))
    ∧ (nowBlocks < s.last_updated → satSub nowBlocks s.last_updated = 0) := by
  refine ⟨?_, ?_, ?_⟩
  · simp only [access_remainer_quota_after_update, ge_iff_le]
  · simp only [access_remainer_quota_after_update, ge_iff_le]
  · intro h
    exact Nat.sub_eq_zero_of_le (Nat.le_of_lt h)

/-- Witness for C4: with the clock behind `last_updated` the saturating
subtraction yields zero elapsed time. -/
theorem fixedWindow_replenish_witness : satSub 3 7 = 0 :=
  (fixedWindow_replenish 1 1 3 0 ⟨7, 5⟩).2.2 (by decide)

/-- Example state with a `NotAllowed` rule for limiter 0 and the empty key. -/
def stNotAllowed : PalletState := setRule initState 0 [] (some RateLimitRule.NotAllowed)

/-- Example state with a token-bucket rule for limiter 0 and the empty key. -/
def stTokenBucket : PalletState :=
  setRule initState 0 [] (some (RateLimitRule.TokenBucket 5 10 30))

/-- C5: `is_allowed` never touches the rules or the whitelist; its only write
is the quota-engine write-back for the queried `(limiter, key)` when a
replenishing rule is configured there — performed whether the call allows or
denies — and with an `Unlimited` / `NotAllowed` / absent rule the state is
completely unchanged. -/
theorem is_allowed_frame (st : PalletState) (nowBlocks nowSecs : Nat) (id : LimiterId)
    (key : EncodedKey) (value : Nat) :
    ((is_allowed st nowBlocks nowSecs id key value).1.rateLimitRules = st.rateLimitRules)
    ∧ ((is_allowed st nowBlocks nowSecs id key value).1.bypassLimitWhitelist
        = st.bypassLimitWhitelist)
    ∧ (∀ i k, ¬(i = id ∧ k = key) →
        (is_allowed st nowBlocks nowSecs id key value).1.rateLimitQuota i k
          = st.rateLimitQuota i k)
    ∧ (∀ rule, st.rateLimitRules id key = some rule → isReplenishing (some rule) = true →
        (is_allowed st nowBlocks nowSecs id key value).1.rateLimitQuota id key
          = (access_remainer_quota_after_update rule nowBlocks nowSecs
              (st.rateLimitQuota id key)).1)
    ∧ (isReplenishing (st.rateLimitRules id key) = false →
        (is_allowed st nowBlocks nowSecs id key value).1 = st) := by
  cases hr : st.rateLimitRules id key with
  | none =>
    refine ⟨by simp [is_allowed, hr], by simp [is_allowed, hr], ?_, ?_, ?_⟩
    · intro i k _; simp [is_allowed, hr]
    · intro rule hr' _; exact Option.noConfusion hr'
    · intro _; simp [is_allowed, hr]
  | some rule =>
    cases rule with
    | PerBlocks bc q =>
      refine ⟨by simp [is_allowed, hr, setQuota], by simp [is_allowed, hr, setQuota],
        ?_, ?_, ?_⟩
      · intro i k hik; simp [is_allowed, hr, setQuota, hik]
      · intro rule' hr' _
        injection hr' with hr''
        subst hr''
        simp [is_allowed, hr, setQuota]
      · intro hf; simp [isReplenishing] at hf
    | PerSeconds sc q =>
      refine ⟨by simp [is_allowed, hr, setQuota], by simp [is_allowed, hr, setQuota],
        ?_, ?_, ?_⟩
      · intro i k hik; simp [is_allowed, hr, setQuota, hik]
      · intro rule' hr' _
        injection hr' with hr''
        subst hr''
        simp [is_allowed, hr, setQuota]
      · intro hf; simp [isReplenishing] at hf
    | TokenBucket bc qi mq =>
      refine ⟨by simp [is_allowed, hr, setQuota], by simp [is_allowed, hr, setQuota],
        ?_, ?_, ?_⟩
      · intro i k hik; simp [is_allowed, hr, setQuota, hik]
      · intro rule' hr' _
        injection hr' with hr''
        subst hr''
        simp [is_allowed, hr, setQuota]
      · intro hf; simp [isReplenishing] at hf
    | Unlimited =>
      refine ⟨by simp [is_allowed, hr], by simp [is_allowed, hr], ?_, ?_, ?_⟩
      · intro i k _; simp [is_allowed, hr]
      · intro rule' hr' hrep
        injection hr' with hr''
        subst hr''
        simp [isReplenishing] at hrep
      · intro _; simp [is_allowed, hr]
    | NotAllowed =>
      refine ⟨by simp [is_allowed, hr], by simp [is_allowed, hr], ?_, ?_, ?_⟩
      · intro i k _; simp [is_allowed, hr]
      · intro rule' hr' hrep
        injection hr' with hr''
        subst hr''
        simp [isReplenishing] at hrep
      · intro _; simp [is_allowed, hr]

/-- Witness for C5: with a `NotAllowed` rule configured, a denied `is_allowed`
call leaves the state untouched. -/
theorem is_allowed_frame_witness :
    (is_allowed stNotAllowed 0 0 0 [] 7).1 = stNotAllowed :=
  (is_allowed_frame stNotAllowed 0 0 0 [] 7).2.2.2.2 (by decide)

/-- C6: configuring a replenishing rule with any zero-valued field fails with
`InvalidRateLimitRule` and leaves the state untouched (transactional
rollback); every successful call stores the new rule (deleting it for `none`),
resets the quota entry of that key to the `(0, 0)` default, and changes no
other entry. -/
theorem update_rate_limit_rule_spec (st : PalletState) (id : LimiterId) (key : EncodedKey) :
    (∀ bc q, bc = 0 ∨ q = 0 →
      update_rate_limit_rule st id key (some (RateLimitRule.PerBlocks bc q))
        = (st, some RuleError.InvalidRateLimitRule))
    ∧ (∀ sc q, sc = 0 ∨ q = 0 →
      update_rate_limit_rule st id key (some (RateLimitRule.PerSeconds sc q))
        = (st, some RuleError.InvalidRateLimitRule))
    ∧ (∀ bc qi mq, bc = 0 ∨ qi = 0 ∨ mq = 0 →
      update_rate_limit_rule st id key (some (RateLimitRule.TokenBucket bc qi mq))
        = (st, some RuleError.InvalidRateLimitRule))
    ∧ (∀ upd, (update_rate_limit_rule st id key upd).2 = none →
        (update_rate_limit_rule st id key upd).1.rateLimitRules id key = upd
        ∧ (update_rate_limit_rule st id key upd).1.rateLimitQuota id key = ⟨0, 0⟩
        ∧ (∀ i k, ¬(i = id ∧ k = key) →
            (update_rate_limit_rule st id key upd).1.rateLimitRules i k
              = st.rateLimitRules i k
            ∧ (update_rate_limit_rule st id key upd).1.rateLimitQuota i k
              = st.rateLimitQuota i k)
        ∧ (update_rate_limit_rule st id key upd).1.bypassLimitWhitelist
            = st.bypassLimitWhitelist) := by
  refine ⟨?_, ?_, ?_, ?_⟩
  · intro bc q h
    have hv : validRule (RateLimitRule.PerBlocks bc q) = false := by
      rcases h with h | h <;> simp [validRule, h]
    simp [update_rate_limit_rule, hv]
  · intro sc q h
    have hv : validRule (RateLimitRule.PerSeconds sc q) = false := by
      rcases h with h | h <;> simp [validRule, h]
    simp [update_rate_limit_rule, hv]
  · intro bc qi mq h
    have hv : validRule (RateLimitRule.TokenBucket bc qi mq) = false := by
      rcases h with h | h | h <;> simp [validRule, h]
    simp [update_rate_limit_rule, hv]
  · intro upd hnone
    cases upd with
    | none =>
      refine ⟨by simp [update_rate_limit_rule, setQuota, setRule],
        by simp [update_rate_limit_rule, setQuota, setRule], ?_,
        by simp [update_rate_limit_rule, setQuota, setRule]⟩
      intro i k hik
      constructor <;> simp [update_rate_limit_rule, setQuota, setRule, hik]
    | some rule =>
      cases hv : validRule rule with
      | false =>
        rw [show update_rate_limit_rule st id key (some rule)
            = (st, some RuleError.InvalidRateLimitRule) by
          simp [update_rate_limit_rule, hv]] at hnone
        exact Option.noConfusion hnone
      | true =>
        refine ⟨by simp [update_rate_limit_rule, hv, setQuota, setRule],
          by simp [update_rate_limit_rule, hv, setQuota, setRule], ?_,
          by simp [update_rate_limit_rule, hv, setQuota, setRule]⟩
        intro i k hik
        constructor <;> simp [update_rate_limit_rule, hv, setQuota, setRule, hik]

/-- Witness for C6: a `PerBlocks` rule with zero `blocks_count` is rejected
with `InvalidRateLimitRule` and the genesis state is unchanged. -/
theorem update_rate_limit_rule_spec_witness :
    update_rate_limit_rule initState 0 [] (some (RateLimitRule.PerBlocks 0 5))
      = (initState, some RuleError.InvalidRateLimitRule) :=
  (update_rate_limit_rule_spec initState 0 []).1 0 5 (Or.inl rfl)

/-- C7: with a replenishing rule configured, `record` decreases the stored
remaining quota by `value` with saturating subtraction (reaching exactly 0 on
over-consumption), keeps `last_updated` and every other entry unchanged; with
an `Unlimited` / `NotAllowed` / absent rule it changes nothing. -/
theorem record_spec (st : PalletState) (id : LimiterId) (key : EncodedKey) (value : Nat) :
    (isReplenishing (st.rateLimitRules id key) = true →
      (record st id key value).rateLimitQuota id key
        = ⟨(st.rateLimitQuota id key).last_updated,
            satSub (st.rateLimitQuota id key).remainer_quota value⟩)
    ∧ (∀ i k, ¬(i = id ∧ k = key) →
        (record st id key value).rateLimitQuota i k = st.rateLimitQuota i k)
    ∧ (record st id key value).rateLimitRules = st.rateLimitRules
    ∧ (record st id key value).bypassLimitWhitelist = st.bypassLimitWhitelist
    ∧ ((st.rateLimitQuota id key).remainer_quota ≤ value →
        satSub (st.rateLimitQuota id key).remainer_quota value = 0)
    ∧ (isReplenishing (st.rateLimitRules id key) = false → record st id key value = st) := by
  cases hr : st.rateLimitRules id key with
  | none =>
    refine ⟨?_, ?_, by simp [record, hr], by simp [record, hr], ?_, ?_⟩
    · intro hrep; simp [isReplenishing] at hrep
    · intro i k _; simp [record, hr]
    · intro h; exact Nat.sub_eq_zero_of_le h
    · intro _; simp [record, hr]
  | some rule =>
    cases rule with
    | PerBlocks bc q =>
      refine ⟨?_, ?_, by simp [record, hr, setQuota], by simp [record, hr, setQuota], ?_, ?_⟩
      · intro _; simp [record, hr, setQuota]
      · intro i k hik; simp [record, hr, setQuota, hik]
      · intro h; exact Nat.sub_eq_zero_of_le h
      · intro hf; simp [isReplenishing] at hf
    | PerSeconds sc q =>
      refine ⟨?_, ?_, by simp [record, hr, setQuota], by simp [record, hr, setQuota], ?_, ?_⟩
      · intro _; simp [record, hr, setQuota]
      · intro i k hik; simp [record, hr, setQuota, hik]
      · intro h; exact Nat.sub_eq_zero_of_le h
      · intro hf; simp [isReplenishing] at hf
    | TokenBucket bc qi mq =>
      refine ⟨?_, ?_, by simp [record, hr, setQuota], by simp [record, hr, setQuota], ?_, ?_⟩
      · intro _; simp [record, hr, setQuota]
      · intro i k hik; simp [record, hr, setQuota, hik]
      · intro h; exact Nat.sub_eq_zero_of_le h
      · intro hf; simp [isReplenishing] at hf
    | Unlimited =>
      refine ⟨?_, ?_, by simp [record, hr], by simp [record, hr], ?_, ?_⟩
      · intro hrep; simp [isReplenishing] at hrep
      · intro i k _; simp [record, hr]
      · intro h; exact Nat.sub_eq_zero_of_le h
      · intro _; simp [record, hr]
    | NotAllowed =>
      refine ⟨?_, ?_, by simp [record, hr], by simp [record, hr], ?_, ?_⟩
      · intro hrep; simp [isReplenishing] at hrep
      · intro i k _; simp [record, hr]
      · intro h; exact Nat.sub_eq_zero_of_le h
      · intro _; simp [record, hr]

/-- Witness for C7: recording 7 units against `TokenBucket{5,10,30}` at the
default `(0, 0)` quota state truncates the remaining quota at zero. -/
theorem record_spec_witness :
    (record stTokenBucket 0 [] 7).rateLimitQuota 0 []
      = ⟨(stTokenBucket.rateLimitQuota 0 []).last_updated,
          satSub (stTokenBucket.rateLimitQuota 0 []).remainer_quota 7⟩ :=
  (record_spec stTokenBucket 0 [] 7).1 (by decide)

/-- C8: `is_allowed` denies every amount, including zero, under a
`NotAllowed` rule, and allows every amount, however large, under an
`Unlimited` rule or when no rule is configured. -/
theorem is_allowed_policy (st : PalletState) (nowBlocks nowSecs : Nat) (id : LimiterId)
    (key : EncodedKey) (value : Nat) :
    (st.rateLimitRules id key = some RateLimitRule.NotAllowed →
      (is_allowed st nowBlocks nowSecs id key value).2
        = Except.error RateLimiterError.ExceedLimit)
    ∧ (st.rateLimitRules id key = some RateLimitRule.Unlimited →
      (is_allowed st nowBlocks nowSecs id key value).2 = Except.ok ())
    ∧ (st.rateLimitRules id key = none →
      (is_allowed st nowBlocks nowSecs id key value).2 = Except.ok ()) := by
  refine ⟨?_, ?_, ?_⟩ <;> intro hr <;> simp [is_allowed, hr]

/-- Witness for C8: the `NotAllowed` rule denies even a zero-amount check. -/
theorem is_allowed_policy_witness :
    (is_allowed stNotAllowed 0 0 0 [] 0).2 = Except.error RateLimiterError.ExceedLimit :=
  (is_allowed_policy stNotAllowed 0 0 0 [] 0).1 (by decide)

theorem listStartsWith_iff : ∀ {key pat : List Nat},
    listStartsWith key pat = true ↔ List.IsPrefix pat key := by
  intro key
  induction key with
  | nil =>
    intro pat
    cases pat with
    | nil => simp [listStartsWith]
    | cons b bs => simp [listStartsWith]
  | cons a as ih =>
    intro pat
    cases pat with
    | nil => simp [listStartsWith, List.nil_prefix]
    | cons b bs =>
      simp only [listStartsWith, Bool.and_eq_true, beq_iff_eq]
      rw [List.cons_prefix_cons]
      constructor
      · rintro ⟨h1, h2⟩; exact ⟨h1.symm, ih.mp h2⟩
      · rintro ⟨h1, h2⟩; exact ⟨h1.symm, ih.mpr h2⟩

theorem listEndsWith_iff {key pat : List Nat} :
    listEndsWith key pat = true ↔ List.IsSuffix pat key := by
  unfold listEndsWith
  rw [listStartsWith_iff]
  exact List.reverse_prefix

theorem listStartsWith_nil (l : List Nat) : listStartsWith l [] = true := by
  cases l <;> rfl

theorem bypassList_iff (wl : List KeyFilter) (key : EncodedKey) :
    bypassList wl key = true ↔ ∃ kf, kf ∈ wl ∧ matchesFilter key kf = true := by
  unfold bypassList
  simp [List.any_eq_true]

/-- C9: `bypass_limit` is true exactly when some stored filter matches the
encoded key — `Match` by byte equality, `StartsWith` by the byte-prefix
relation, `EndsWith` by the byte-suffix relation — the result is invariant
under permutation of the filter set, and an unconfigured whitelist yields
false. -/
theorem bypass_limit_spec (st : PalletState) (id : LimiterId) (key : EncodedKey) :
    (bypass_limit st id key = true ↔
      ∃ kf, kf ∈ st.bypassLimitWhitelist id ∧ matchesFilter key kf = true)
    ∧ (∀ v, matchesFilter key (KeyFilter.Match v) = true ↔ key = v)
    ∧ (∀ v, matchesFilter key (KeyFilter.StartsWith v) = true ↔ List.IsPrefix v key)
    ∧ (∀ v, matchesFilter key (KeyFilter.EndsWith v) = true ↔ List.IsSuffix v key)
    ∧ (∀ wl : List KeyFilter, List.Perm wl (st.bypassLimitWhitelist id) →
        bypassList wl key = bypass_limit st id key)
    ∧ (st.bypassLimitWhitelist id = [] → bypass_limit st id key = false) := by
  refine ⟨bypassList_iff _ _, ?_, ?_, ?_, ?_, ?_⟩
  · intro v; simp [matchesFilter]
  · intro v; exact listStartsWith_iff
  · intro v; exact listEndsWith_iff
  · intro wl hperm
    cases hwl : bypassList wl key with
    | false =>
      cases hst : bypass_limit st id key with
      | false => rfl
      | true =>
        exfalso
        have hst' : bypassList (st.bypassLimitWhitelist id) key = true := hst
        rcases (bypassList_iff _ _).mp hst' with ⟨kf, hm, hmat⟩
        have : bypassList wl key = true :=
          (bypassList_iff _ _).mpr ⟨kf, hperm.mem_iff.mpr hm, hmat⟩
        rw [hwl] at this
        exact Bool.noConfusion this
    | true =>
      rcases (bypassList_iff _ _).mp hwl with ⟨kf, hm, hmat⟩
      exact ((bypassList_iff _ _).mpr ⟨kf, hperm.mem_iff.mp hm, hmat⟩).symm
  · intro h
    simp [bypass_limit, h, bypassList]

/-- Witness for C9: the genesis state has no whitelist, so nothing is
bypassed. -/
theorem bypass_limit_spec_witness : bypass_limit initState 0 [] = false :=
  (bypass_limit_spec initState 0 []).2.2.2.2.2 rfl

/-- Example state whose whitelist holds a `StartsWith` filter with an empty
pattern. -/
def stEmptyStartsWith : PalletState := setWhitelist initState 0 [KeyFilter.StartsWith []]

/-- C10: a `StartsWith` or `EndsWith` filter with an empty byte pattern makes
`bypass_limit` true for every key, while an empty-pattern `Match` filter
accepts exactly the empty encoded key. -/
theorem bypass_empty_pattern (st : PalletState) (id : LimiterId) (key : EncodedKey) :
    ((KeyFilter.StartsWith [] ∈ st.bypassLimitWhitelist id
        ∨ KeyFilter.EndsWith [] ∈ st.bypassLimitWhitelist id) →
      bypass_limit st id key = true)
    ∧ (matchesFilter key (KeyFilter.Match []) = true ↔ key = []) := by
  constructor
  · intro h
    have hsw : matchesFilter key (KeyFilter.StartsWith []) = true := listStartsWith_nil key
    have hew : matchesFilter key (KeyFilter.EndsWith []) = true := listStartsWith_nil key.reverse
    rcases h with h | h
    · exact (bypassList_iff _ _).mpr ⟨KeyFilter.StartsWith [], h, hsw⟩
    · exact (bypassList_iff _ _).mpr ⟨KeyFilter.EndsWith [], h, hew⟩
  · simp [matchesFilter]

/-- Witness for C10: a whitelist consisting of `StartsWith []` bypasses an
arbitrary non-empty key. -/
theorem bypass_empty_pattern_witness : bypass_limit stEmptyStartsWith 0 [5] = true :=
  (bypass_empty_pattern stEmptyStartsWith 0 [5]).1 (Or.inl (by decide))
